import Mathlib

/-!
# Verification of the "subset winners" dominance engine

Shallow embedding of the client-side Pareto-dominance analysis of the
afffine-dash-starter dashboard.  The engine lives (duplicated) in
`src/components/Skeleton.tsx` (matrix view), `src/components/PointsBySubsetSize.tsx`
(stacked-bar view) and the ledger component (`computeWinnerDetail`).

Modelling conventions, fixed once for the whole file:

* JS numbers flowing through the engine are idealized as exact rationals (`ℚ`).
  All scores the engine consumes are produced by `parseScoreAny`, which only
  lets finite numbers through, so an engine-level score is `Option ℚ` with
  `none` standing for a `null`/absent value (compared as `-Infinity` by the
  source).  The extended order is made explicit through `WithBot ℚ` (`⊥` is
  `-Infinity`).
* The raw normalizer output is modelled separately (`RawMiner`): there the
  `Pts`/`Wgt` cells go through the JS `Number(...)` coercion, which can produce
  `NaN`, so those fields are `Option JSNum` where `JSNum` has explicit
  `nan`/infinite values.
* The source keys a miner's scores by environment *name* (`m.env[envs[i]]`),
  with the environment list de-duplicated and every miner record carrying an
  entry for each environment; we therefore model `env` as a list positionally
  aligned with the environment list, and abstract the environment list by its
  length `N`.  An index out of range models a missing map entry (JS
  `undefined`, which the source treats exactly like `null`).
* Bitmask tests `mask & (1 << i)` are modelled by `Nat.testBit`; the engine
  only ever builds masks below `2^N` with `N ≤ 8`, where the two coincide.
* `String.prototype.localeCompare` / `toLowerCase` are modelled by Lean's
  code-point lexicographic order and `String.toLower` (they agree on the
  ASCII model names the dashboard handles).
-/

/-- A miner record as consumed by the dominance engine
(`type Miner` in `Skeleton.tsx` / `PointsBySubsetSize.tsx`).
`env` is positionally aligned with the (de-duplicated) environment list. -/
structure Miner where
  id : String
  uid : Option ℚ
  model : String
  weight : Option ℚ
  pts : Option ℚ
  env : List (Option ℚ)
deriving DecidableEq, Repr

/-- Score of miner `m` on environment index `i`; out-of-range lookups model a
missing map entry (treated like `null` by the source). -/
def envVal (m : Miner) (i : ℕ) : Option ℚ :=
  m.env.getD i none

/-- The JS comparison `va < vb` after the source's
`ea == null ? -Infinity : Number(ea)` coercion: `none` is `-Infinity`. -/
def eltB : Option ℚ → Option ℚ → Bool
  | none, none => false
  | none, some _ => true
  | some _, none => false
  | some x, some y => decide (x < y)

/-- Interpret a nullable score in the extended order used by the source
(`null` ↦ `-Infinity`). -/
def toE (v : Option ℚ) : WithBot ℚ :=
  match v with
  | none => ⊥
  | some q => (q : WithBot ℚ)

/-- Loop body of `sumScores` (`Skeleton.tsx` lines 90–100): walk the index
list, bail out to `-Infinity` (`none`) on the first masked environment without
a finite score, otherwise accumulate the sum. -/
def sumScoresAux (m : Miner) (mask : ℕ) : List ℕ → ℚ → Option ℚ
  | [], s => some s
  | i :: rest, s =>
    if mask.testBit i then
      match envVal m i with
      | none => none
      | some v => sumScoresAux m mask rest (s + v)
    else sumScoresAux m mask rest s

/-- `sumScores(envs, miner, mask)`: sum of the miner's scores over the masked
environments, `-Infinity` (here `none`) if any of them is missing. -/
def sumScores (N : ℕ) (m : Miner) (mask : ℕ) : Option ℚ :=
  sumScoresAux m mask (List.range N) 0

/-- Loop body of `dominates` (`Skeleton.tsx` lines 102–115); `acc` is the
`anyStrict` flag. -/
def dominatesAux (a b : Miner) (mask : ℕ) : List ℕ → Bool → Bool
  | [], acc => acc
  | i :: rest, acc =>
    if mask.testBit i then
      if eltB (envVal a i) (envVal b i) then false
      else dominatesAux a b mask rest (acc || eltB (envVal b i) (envVal a i))
    else dominatesAux a b mask rest acc

/-- `dominates(envs, a, b, mask)`: `a` Pareto-dominates `b` on the subset
`mask` (≥ on every masked axis, > on at least one, `null` ↦ `-Infinity`). -/
def dominates (N : ℕ) (a b : Miner) (mask : ℕ) : Bool :=
  dominatesAux a b mask (List.range N) false

/-- The candidate filter of `bestByPareto` (`Skeleton.tsx` lines 120–128):
a miner qualifies iff it has at least one defined score on a masked
environment. -/
def hasAnyScore (N : ℕ) (m : Miner) (mask : ℕ) : Bool :=
  (List.range N).any (fun i => mask.testBit i && (envVal m i).isSome)

/-- Candidates of a subset: miners with at least one defined masked score. -/
def candidatesOf (N : ℕ) (miners : List Miner) (mask : ℕ) : List Miner :=
  miners.filter (fun m => hasAnyScore N m mask)

/-- The non-dominated (Pareto-frontier) candidates (`Skeleton.tsx` lines
132–141).  The source skips the `a === b` pair by object identity before
testing `dominates`; since `dominates` never holds between miners with equal
score vectors (it needs a strict axis), filtering with the unrestricted `any`
is equivalent. -/
def nonDominatedOf (N : ℕ) (miners : List Miner) (mask : ℕ) : List Miner :=
  let candidates := candidatesOf N miners mask
  candidates.filter (fun a => ! candidates.any (fun b => dominates N b a mask))

/-- The 4-part tie-break key `[w, p, s, model.toLowerCase()]` built in
`bestByPareto` (`Skeleton.tsx` lines 147–150); `none` components are the
source's `-Infinity`. -/
structure TKey where
  w : Option ℚ
  p : Option ℚ
  s : Option ℚ
  m : String
deriving DecidableEq, Repr

/-- Key of a miner for a given subset. -/
def mkKey (N : ℕ) (mn : Miner) (mask : ℕ) : TKey :=
  ⟨mn.weight, mn.pts, sumScores N mn mask, mn.model.toLower⟩

/-- `compareTupleDesc(a, b) > 0` (`Skeleton.tsx` lines 159–164).  On each
numeric level the source tests `a[i] !== b[i]` and then the sign of
`a[i] - b[i]`; with the `-Infinity` encoding this is exactly: unequal and
`b < a` in the extended order.  The final level is
`b[3].localeCompare(a[3]) > 0`, i.e. `a.m < b.m`. -/
def cmpTupleDescPos (a b : TKey) : Bool :=
  if a.w ≠ b.w then eltB b.w a.w
  else if a.p ≠ b.p then eltB b.p a.p
  else if a.s ≠ b.s then eltB b.s a.s
  else decide (a.m < b.m)

/-- The selection loop of `bestByPareto` (`Skeleton.tsx` lines 144–155):
keep the current best, replace it when the new key compares strictly
greater. -/
def tieBreakFold (N : ℕ) (mask : ℕ) (nd : List Miner) : Option (Miner × TKey) :=
  nd.foldl
    (fun best m =>
      let key := mkKey N m mask
      match best with
      | none => some (m, key)
      | some (bm, bk) => if cmpTupleDescPos key bk then some (m, key) else some (bm, bk))
    none

/-- `bestByPareto(envs, miners, mask)` (`Skeleton.tsx` lines 117–157). -/
def bestByPareto (N : ℕ) (miners : List Miner) (mask : ℕ) : Option Miner :=
  if miners = [] then none
  else
    let candidates := candidatesOf N miners mask
    if candidates = [] then none
    else (tieBreakFold N mask (nonDominatedOf N miners mask)).map Prod.fst

/-!
## JS number parsing (`parseScoreAny` and the `Number(...)` coercion)

`parseScoreAny` (identical in `Skeleton.tsx` lines 175–182,
`PointsBySubsetSize.tsx` lines 115–122 and the ledger component) feeds
`parseFloat`; the row normalizer coerces `Pts`/`Wgt` cells with `Number(...)`.
Both built-ins are modelled on exact rationals: `JSNum` makes the non-finite
results (`NaN`, `±Infinity`) explicit.
-/

/-- A JS number result: `NaN`, `±Infinity`, or a finite value (idealized
as an exact rational). -/
inductive JSNum where
  | nan
  | posInf
  | negInf
  | fin (q : ℚ)
deriving DecidableEq, Repr

/-- JS `StrWhiteSpace` characters (the common ones). -/
def jsWhitespace (c : Char) : Bool :=
  c = ' ' || c = '\t' || c = '\n' || c = '\r' || c = '\x0b' || c = '\x0c'

/-- Value of a decimal digit list, most significant first (digit codes are
48–57). -/
def digitsToNat (ds : List Char) : ℕ :=
  ds.foldl (fun a c => 10 * a + (c.toNat - 48)) 0

/-- Exponent-part parser: consume `[eE][+-]?digits` when at least one digit
follows, otherwise consume nothing (JS longest-valid-literal rule). -/
def parseExpAfterSign (orig ds : List Char) (sgn : ℤ) : ℤ × List Char :=
  let d := ds.takeWhile Char.isDigit
  if d.isEmpty then (0, orig) else (sgn * digitsToNat d, ds.dropWhile Char.isDigit)

/-- Exponent-part parser entry point (returns `(0, input)` when no valid
exponent part starts the input). -/
def parseExp (cs : List Char) : ℤ × List Char :=
  match cs with
  | c :: rest =>
    if c = 'e' || c = 'E' then
      match rest with
      | '+' :: ds => parseExpAfterSign cs ds 1
      | '-' :: ds => parseExpAfterSign cs ds (-1)
      | ds => parseExpAfterSign cs ds 1
    else (0, cs)
  | [] => (0, cs)

/-- Longest-prefix parser for an unsigned JS decimal literal
`digits [. digits] [exp]` / `. digits [exp]`: the value and the unconsumed
characters, or `none` when no digit is present. -/
def parseDecLit (cs : List Char) : Option (ℚ × List Char) :=
  let ip := cs.takeWhile Char.isDigit
  let r1 := cs.dropWhile Char.isDigit
  let fr : List Char × List Char :=
    match r1 with
    | '.' :: rest => (rest.takeWhile Char.isDigit, rest.dropWhile Char.isDigit)
    | _ => ([], r1)
  if ip.isEmpty && fr.1.isEmpty then none
  else
    let er := parseExp fr.2
    let base : ℚ := (digitsToNat ip : ℚ) + (digitsToNat fr.1 : ℚ) / ((10 : ℚ) ^ fr.1.length)
    let v : ℚ := if 0 ≤ er.1 then base * (10 : ℚ) ^ er.1.toNat else base / (10 : ℚ) ^ (-er.1).toNat
    some (v, er.2)

/-- Recognize a literal `Infinity` head, returning the rest. -/
def dropInfinity : List Char → Option (List Char)
  | 'I' :: 'n' :: 'f' :: 'i' :: 'n' :: 'i' :: 't' :: 'y' :: rest => some rest
  | _ => none

/-- JS `parseFloat`: skip leading whitespace, optional sign, then the longest
valid decimal literal (or `Infinity`); `NaN` when none starts the string. -/
def jsParseFloat (s : String) : JSNum :=
  let cs := s.data.dropWhile jsWhitespace
  let sc : Bool × List Char :=
    match cs with
    | '+' :: rest => (false, rest)
    | '-' :: rest => (true, rest)
    | rest => (false, rest)
  match dropInfinity sc.2 with
  | some _ => if sc.1 then .negInf else .posInf
  | none =>
    match parseDecLit sc.2 with
    | none => .nan
    | some (q, _) => .fin (if sc.1 then -q else q)

/-- Digit value in radix up to 16, via character codes (48–57 are the
decimal digits, 97–102 and 65–70 the hex letters). -/
def digitVal (c : Char) : Option ℕ :=
  let n := c.toNat
  if 48 ≤ n ∧ n ≤ 57 then some (n - 48)
  else if 97 ≤ n ∧ n ≤ 102 then some (n - 87)
  else if 65 ≤ n ∧ n ≤ 70 then some (n - 55)
  else none

/-- Unsigned radix integer literal body (for `0x`/`0o`/`0b` strings): all
characters must be digits of the radix and at least one must be present. -/
def radixNum (r : ℕ) (ds : List Char) : JSNum :=
  if !ds.isEmpty && ds.all (fun c => ((digitVal c).map (fun v => decide (v < r))).getD false) then
    .fin ((ds.foldl (fun a c => r * a + (digitVal c).getD 0) 0 : ℕ) : ℚ)
  else .nan

/-- Signed full-string decimal (or `Infinity`) for the `Number(...)`
coercion: the whole remaining input must be consumed. -/
def decFull (cs : List Char) : JSNum :=
  let sc : Bool × List Char :=
    match cs with
    | '+' :: rest => (false, rest)
    | '-' :: rest => (true, rest)
    | rest => (false, rest)
  match dropInfinity sc.2 with
  | some [] => if sc.1 then .negInf else .posInf
  | some _ => .nan
  | none =>
    match parseDecLit sc.2 with
    | some (q, []) => .fin (if sc.1 then -q else q)
    | _ => .nan

/-- JS `Number(string)` (the `ToNumber` string coercion): trim whitespace,
empty means `0`, a `0x`/`0o`/`0b` integer or a fully-consumed signed decimal
literal, anything else is `NaN`. -/
def jsStringToNumber (s : String) : JSNum :=
  let cs := ((s.data.dropWhile jsWhitespace).reverse.dropWhile jsWhitespace).reverse
  match cs with
  | [] => .fin 0
  | '0' :: x :: rest =>
    if x = 'x' || x = 'X' then radixNum 16 rest
    else if x = 'o' || x = 'O' then radixNum 8 rest
    else if x = 'b' || x = 'B' then radixNum 2 rest
    else decFull cs
  | _ => decFull cs

/-- One table cell of the summary payload (`string | number | null`); JSON
numbers are always finite, hence `ℚ`. -/
inductive Cell where
  | num (q : ℚ)
  | str (s : String)
  | null
deriving DecidableEq, Repr

/-- Remove every `*` (the source's `replace(/\* /g, '')` without the space). -/
def stripStars (s : String) : String :=
  ⟨s.data.filter (· ≠ '*')⟩

/-- The part before the first `/`. -/
def takeBeforeSlash (s : String) : String :=
  ⟨s.data.takeWhile (· ≠ '/')⟩

/-- `parseScoreAny` (`Skeleton.tsx` lines 175–182): `null` stays `null`,
finite numbers pass through, strings are stripped of `*`, cut at the first
`/` when one is present, and fed to `parseFloat`; non-finite results become
`null`. -/
def parseScoreAny : Cell → Option ℚ
  | .null => none
  | .num q => some q
  | .str s =>
    let str := stripStars s
    let head := if str.data.contains '/' then takeBeforeSlash str else str
    match jsParseFloat head with
    | .fin q => some q
    | _ => none

/-!
## Score table normalizer (`miners` memo, `Skeleton.tsx` lines 231–263)

The raw output type is kept separate from `Miner`: the source coerces the
`Pts`/`Wgt` cells with the bare `Number(...)` conversion (not through
`parseScoreAny`), so those fields can be `NaN`; `RawMiner` records them as
`Option JSNum` (with `none` for JS `null`).
-/

/-- Normalizer output record.  `env` is positionally aligned with the
inferred environment list.  The `id` interpolation of a JS number is modelled
exactly for integral uids (the only shape the payload carries). -/
structure RawMiner where
  id : String
  uid : Option ℚ
  model : String
  weight : Option JSNum
  pts : Option JSNum
  env : List (Option ℚ)
deriving DecidableEq, Repr

/-- `cols.indexOf(name)` as an optional index (`-1` becomes `none`). -/
def colIdx (cols : List String) (name : String) : Option ℕ :=
  cols.findIdx? (· = name)

/-- `row[i]` for an optional index; `none` stands for the JS `undefined`
produced by a `-1` index or an out-of-range access (the source only ever
observes it through `== null` and `Number(...)`, where it behaves like
an absent value). -/
def cellAt (row : List Cell) : Option ℕ → Option Cell
  | none => none
  | some i => row.get? i

/-- JS `Number(x)` on a possibly-undefined cell (`Number(undefined) = NaN`,
`Number(null) = 0`). -/
def jsToNumberCell : Option Cell → JSNum
  | none => .nan
  | some .null => .fin 0
  | some (.num q) => .fin q
  | some (.str s) => jsStringToNumber s

/-- `parseScoreAny` on a possibly-undefined cell (the source passes `null`
for a missing column and `undefined` for a short row; both take the
`v == null` branch). -/
def parseScoreAnyCell : Option Cell → Option ℚ
  | none => none
  | some c => parseScoreAny c

/-- JS string interpolation of a finite number, for integral values (the
`uid` field of the payload). -/
def jsIntStr (q : ℚ) : String :=
  if q.den = 1 then toString q.num else toString q

/-- `String(row[iModel] ?? '')`: model cells are strings in the payload
(numeric model cells would need the full JS number-to-string algorithm,
which no claim exercises). -/
def jsCellToString : Option Cell → String
  | none => ""
  | some .null => ""
  | some (.str s) => s
  | some (.num q) => jsIntStr q

/-- One row of the `summary.rows.map(...)` normalizer (`Skeleton.tsx`
lines 242–262): `uid` by pass-through-or-`Number`, `Pts`/`Wgt` by
null-guarded `Number`, environment cells through `parseScoreAny`. -/
def toRawMiner (cols : List String) (envs : List String) (row : List Cell) : RawMiner :=
  let iUID := colIdx cols "UID"
  let iModel := colIdx cols "Model"
  let iPts := colIdx cols "Pts"
  let iWgt := colIdx cols "Wgt"
  let uidNum : JSNum :=
    match cellAt row iUID with
    | some (.num q) => .fin q
    | c => jsToNumberCell c
  let uid : Option ℚ := match uidNum with | .fin q => some q | _ => none
  let model := jsCellToString (cellAt row iModel)
  let pts : Option JSNum :=
    match cellAt row iPts with
    | none => none
    | some .null => none
    | some c => some (jsToNumberCell (some c))
  let wgt : Option JSNum :=
    match cellAt row iWgt with
    | none => none
    | some .null => none
    | some c => some (jsToNumberCell (some c))
  let env := envs.map (fun e => parseScoreAnyCell (cellAt row (colIdx cols e)))
  { id := (match uid with | some q => jsIntStr q | none => "-1") ++ "|" ++ model
    uid := uid
    model := model
    weight := wgt
    pts := pts
    env := env }

/-- The whole normalizer: one `RawMiner` per row. -/
def minersOf (cols : List String) (envs : List String) (rows : List (List Cell)) :
    List RawMiner :=
  rows.map (toRawMiner cols envs)

/-!
## Subset columns (`rawColumns`, `Skeleton.tsx` lines 284–319) and the
top-M truncation (`columns`, lines 333–353)
-/

/-- The selectable bar metric. -/
inductive Metric where
  | pts
  | weight
  | sum
deriving DecidableEq, Repr

/-- `popcount` (`Skeleton.tsx` lines 73–80): the clear-lowest-set-bit loop.
The `fuel` argument makes the recursion structural; `fuel = n` suffices
because every iteration clears at least one bit. -/
def popcountAux : ℕ → ℕ → ℕ
  | 0, _ => 0
  | _, 0 => 0
  | fuel + 1, n + 1 => popcountAux fuel ((n + 1) &&& n) + 1

/-- Population count of a mask. -/
def popcount (n : ℕ) : ℕ :=
  popcountAux n n

/-- A `kind: 'subset'` column record (the fields the analysis computes;
`envList` is determined by `mask` and carried implicitly). -/
structure SubsetCol where
  mask : ℕ
  size : ℕ
  value : ℚ
  winnerId : String
  winnerLabel : String
deriving DecidableEq, Repr

/-- The winner's bar-metric value (`Skeleton.tsx` lines 296–304): the chosen
scalar, with `null` → `-Infinity` → the `!Number.isFinite` guard resetting it
to `0`.  A `-Infinity` subset-score-sum is caught by the same guard, so on
`Option ℚ` the net effect is `getD 0`. -/
def metricValue (N : ℕ) (metric : Metric) (w : Miner) (mask : ℕ) : ℚ :=
  match metric with
  | .pts => w.pts.getD 0
  | .weight => w.weight.getD 0
  | .sum => (sumScores N w mask).getD 0

/-- `rawColumns` (`Skeleton.tsx` lines 284–319): one record per mask in
`1 .. 2^N - 1` whose `bestByPareto` is non-null; masks without a winner are
skipped. -/
def rawColumns (N : ℕ) (miners : List Miner) (metric : Metric) : List SubsetCol :=
  if N = 0 ∨ miners = [] then []
  else
    (List.range' 1 (2 ^ N - 1)).filterMap (fun mask =>
      match bestByPareto N miners mask with
      | none => none
      | some w =>
        some { mask := mask, size := popcount mask, value := metricValue N metric w mask,
               winnerId := w.id, winnerLabel := w.model })

/-- A displayed column: a pass-through subset column or a folded `other`
bucket. -/
inductive Column where
  | subset (c : SubsetCol)
  | other (size : ℕ) (value : ℚ) (count : ℕ)
deriving DecidableEq, Repr

/-- Sum of the metric values of a column group. -/
def sumVals (l : List SubsetCol) : ℚ :=
  (l.map SubsetCol.value).sum

/-- The columns of `rest` whose subset size is `s`. -/
def restGroup (rest : List SubsetCol) (s : ℕ) : List SubsetCol :=
  rest.filter (fun c => c.size = s)

/-- The `other` buckets built from the tail beyond the display cap
(`Skeleton.tsx` lines 339–351): the JS code accumulates a `Map` keyed by
size in first-seen order and then sorts its entries ascending by size; per
size the accumulated value is the group's sum and the count its length
(rational addition is commutative, so accumulation order is immaterial).
A bucket is pushed only when `count > 0 && value > 0`. -/
def foldOthers (rest : List SubsetCol) : List Column :=
  let sizes := ((rest.map SubsetCol.size).dedup).mergeSort (fun a b => decide (a ≤ b))
  sizes.filterMap (fun s =>
    let group := restGroup rest s
    if 0 < group.length ∧ 0 < sumVals group then
      some (.other s (sumVals group) group.length)
    else none)

/-- The `columns` memo (`Skeleton.tsx` lines 333–353): pass the sorted list
through unchanged when it fits in `topM`, otherwise keep the first `topM`
columns and append the per-size `other` buckets of the rest. -/
def applyTopM (sorted : List SubsetCol) (topM : ℕ) : List Column :=
  if sorted.length ≤ topM then sorted.map .subset
  else (sorted.take topM).map .subset ++ foldOthers (sorted.drop topM)

/-!
## The sibling implementations

`PointsBySubsetSize.tsx` lines 58–97 carries a character-for-character copy
of `bestByPareto` (its `dominates`, `sumScores` and `compareTupleDesc` are
likewise identical); `bestByParetoPBS` therefore shares this file's helper
definitions.  The ledger component defines `computeWinnerDetail`, which
reproduces the same candidate filter, frontier and tie-break fold but
returns a record with diagnostic fields.
-/

/-- `bestByPareto` of `PointsBySubsetSize.tsx` (lines 58–97): a verbatim
copy of the matrix view's function, including the `!miners.length` early
return. -/
def bestByParetoPBS (N : ℕ) (miners : List Miner) (mask : ℕ) : Option Miner :=
  if miners = [] then none
  else
    let candidates := candidatesOf N miners mask
    if candidates = [] then none
    else (tieBreakFold N mask (nonDominatedOf N miners mask)).map Prod.fst

/-- `avgScores` of the ledger component: mean of the defined masked scores,
`-Infinity` (`none`) when there are none. -/
def avgScores (N : ℕ) (m : Miner) (mask : ℕ) : Option ℚ :=
  let sn := (List.range N).foldl
    (fun (acc : ℚ × ℕ) i =>
      if mask.testBit i then
        match envVal m i with
        | some v => (acc.1 + v, acc.2 + 1)
        | none => acc
      else acc)
    (0, 0)
  if sn.2 = 0 then none else some (sn.1 / (sn.2 : ℚ))

/-- `normalizedMeanAcc` of the ledger component: scale a mean into `0..1`
using the maximum observed score (the `!Number.isFinite(meanRaw)` NaN guard
is vacuous on `ℚ` inputs, and the caller already filters `-Infinity`). -/
def normalizedMeanAcc (meanRaw maxObserved : ℚ) : ℚ :=
  if maxObserved ≤ 0 then meanRaw
  else if maxObserved ≤ 100001 / 100000 then meanRaw
  else if maxObserved ≤ 1000001 / 100000 then meanRaw / 10
  else if maxObserved ≤ 10000001 / 100000 then meanRaw / 100
  else meanRaw / maxObserved

/-- The tie-break dimension label of `WinnerDetail`. -/
inductive TieBreakDim where
  | weight
  | pts
  | sum
  | model
  | dash
deriving DecidableEq, Repr

/-- The win-mode label of `WinnerDetail`. -/
inductive WinMode where
  | dom
  | mean
  | dash
deriving DecidableEq, Repr

/-- `WinnerDetail` as returned by `computeWinnerDetail`. -/
structure WinnerDetail where
  winner : Option Miner
  domEdges : ℕ
  tieBreak : TieBreakDim
  winMode : WinMode
  meanAcc01 : Option ℚ
deriving DecidableEq, Repr

/-- JS `Math.max` folded over a list of extended values (`-Infinity` for
`none`); mirrors `Math.max(...vals)` on the key components. -/
def emaxOpt : Option ℚ → Option ℚ → Option ℚ
  | none, b => b
  | a, none => a
  | some x, some y => some (max x y)

/-- Does a list of extended values have a unique maximum?  (`countMax === 1`
in the ledger's tie-break detector; `===` on numbers is plain equality here,
including `-Infinity === -Infinity`.) -/
def uniqueMaxE (l : List (Option ℚ)) : Bool :=
  let mx := l.foldl emaxOpt none
  l.countP (fun v => v = mx) = 1

/-- The ledger's tie-break dimension detector (first dimension with a unique
strict optimum: weight, then pts, then sum, then lexicographically-least
model name; `'-'` when even the names tie). -/
def tieBreakOf (keys : List TKey) : TieBreakDim :=
  if uniqueMaxE (keys.map TKey.w) then .weight
  else if uniqueMaxE (keys.map TKey.p) then .pts
  else if uniqueMaxE (keys.map TKey.s) then .sum
  else
    match keys.map TKey.m with
    | [] => .dash
    | v :: rest =>
      if (v :: rest).countP (fun x => x = rest.foldl min v) = 1 then .model else .dash

/-- `computeWinnerDetail` of the ledger component (lines 348–452 of its
file): same candidates / frontier / fold as `bestByPareto`, plus the
diagnostic fields.  The `m === best` skip in the `domEdges` count is modelled
by structural inequality: an equal-valued miner is never dominated, so the
two readings count the same edges. -/
def computeWinnerDetail (N : ℕ) (miners : List Miner) (mask : ℕ) : WinnerDetail :=
  let candidates := candidatesOf N miners mask
  if candidates = [] then ⟨none, 0, .dash, .dash, none⟩
  else
    let nd := nonDominatedOf N miners mask
    match tieBreakFold N mask nd with
    | none => ⟨none, 0, .dash, .dash, none⟩
    | some (best, _) =>
      let tb := if 1 < nd.length then tieBreakOf (nd.map (fun m => mkKey N m mask)) else .dash
      let domEdges := candidates.countP (fun m => decide (m ≠ best) && dominates N best m mask)
      let winMode := if 0 < domEdges then WinMode.dom else WinMode.mean
      let maxObserved := candidates.foldl
        (fun acc m =>
          (List.range N).foldl
            (fun acc2 i =>
              if mask.testBit i then
                match envVal m i with
                | some v => max acc2 v
                | none => acc2
              else acc2)
            acc)
        (0 : ℚ)
      let meanAcc01 :=
        match avgScores N best mask with
        | none => none
        | some mr => some (normalizedMeanAcc mr maxObserved)
      ⟨some best, domEdges, tb, winMode, meanAcc01⟩

/-!
## The extended-order reading of the comparisons
-/

theorem eltB_eq_true_iff (x y : Option ℚ) : eltB x y = true ↔ toE x < toE y := by
  cases x <;> cases y <;>
    simp [eltB, toE, WithBot.bot_lt_coe, WithBot.coe_lt_coe, lt_self_iff_false]

theorem eltB_eq_false_iff (x y : Option ℚ) : eltB x y = false ↔ toE y ≤ toE x := by
  rw [← Bool.not_eq_true, eltB_eq_true_iff, not_lt]

theorem toE_inj {x y : Option ℚ} : toE x = toE y ↔ x = y := by
  cases x <;> cases y <;> simp [toE]

/-- Loop invariant of `dominates`: the walk returns `true` iff no masked axis
is strictly lost and (the flag was already set or) some masked axis is
strictly won. -/
theorem dominatesAux_true_iff (a b : Miner) (mask : ℕ) (l : List ℕ) (acc : Bool) :
    dominatesAux a b mask l acc = true ↔
      ((∀ i ∈ l, mask.testBit i = true → toE (envVal b i) ≤ toE (envVal a i)) ∧
        (acc = true ∨ ∃ i ∈ l, mask.testBit i = true ∧ toE (envVal b i) < toE (envVal a i))) := by
  induction l generalizing acc with
  | nil => simp [dominatesAux]
  | cons i rest ih =>
    simp only [dominatesAux]
    by_cases hb : mask.testBit i = true
    · rw [if_pos hb]
      by_cases hlt : eltB (envVal a i) (envVal b i) = true
      · rw [if_pos hlt]
        constructor
        · intro h; exact absurd h (by simp)
        · rintro ⟨hall, -⟩
          have := hall i (List.mem_cons_self i rest) hb
          exact absurd (eltB_eq_true_iff _ _ |>.mp hlt) (not_lt.mpr this)
      · rw [if_neg hlt]
        rw [ih]
        rw [Bool.not_eq_true] at hlt
        have hle := (eltB_eq_false_iff _ _).mp hlt
        constructor
        · rintro ⟨hall, hor⟩
          refine ⟨?_, ?_⟩
          · intro j hj hbj
            rcases List.mem_cons.mp hj with rfl | hj
            · exact hle
            · exact hall j hj hbj
          · rcases hor with h | ⟨j, hj, hbj, hjlt⟩
            · rcases (by simpa using h : acc = true ∨ eltB (envVal b i) (envVal a i) = true) with h | h
              · exact Or.inl h
              · exact Or.inr ⟨i, List.mem_cons_self i rest, hb,
                  (eltB_eq_true_iff _ _).mp h⟩
            · exact Or.inr ⟨j, List.mem_cons_of_mem i hj, hbj, hjlt⟩
        · rintro ⟨hall, hor⟩
          refine ⟨fun j hj hbj => hall j (List.mem_cons_of_mem i hj) hbj, ?_⟩
          rcases hor with h | ⟨j, hj, hbj, hjlt⟩
          · exact Or.inl (by simp [h])
          · rcases List.mem_cons.mp hj with rfl | hj
            · exact Or.inl (by simp [(eltB_eq_true_iff _ _).mpr hjlt])
            · exact Or.inr ⟨j, hj, hbj, hjlt⟩
    · rw [if_neg hb]
      rw [ih]
      constructor
      · rintro ⟨hall, hor⟩
        refine ⟨?_, ?_⟩
        · intro j hj hbj
          rcases List.mem_cons.mp hj with rfl | hj
          · exact absurd hbj (by simp [hb])
          · exact hall j hj hbj
        · rcases hor with h | ⟨j, hj, hbj, hjlt⟩
          · exact Or.inl h
          · exact Or.inr ⟨j, List.mem_cons_of_mem i hj, hbj, hjlt⟩
      · rintro ⟨hall, hor⟩
        refine ⟨fun j hj hbj => hall j (List.mem_cons_of_mem i hj) hbj, ?_⟩
        rcases hor with h | ⟨j, hj, hbj, hjlt⟩
        · exact Or.inl h
        · rcases List.mem_cons.mp hj with rfl | hj
          · exact absurd hbj (by simp [hb])
          · exact Or.inr ⟨j, hj, hbj, hjlt⟩

/-- `dominates` is exactly Pareto dominance in the extended order. -/
theorem dominates_true_iff (N : ℕ) (a b : Miner) (mask : ℕ) :
    dominates N a b mask = true ↔
      ((∀ i, i < N → mask.testBit i = true → toE (envVal b i) ≤ toE (envVal a i)) ∧
        (∃ i, i < N ∧ mask.testBit i = true ∧ toE (envVal b i) < toE (envVal a i))) := by
  unfold dominates
  rw [dominatesAux_true_iff]
  simp [List.mem_range]

theorem dominates_self_false (N : ℕ) (a : Miner) (mask : ℕ) :
    dominates N a a mask = false := by
  rw [Bool.eq_false_iff]
  intro h
  rcases (dominates_true_iff N a a mask).mp h with ⟨-, i, -, -, hlt⟩
  exact lt_irrefl _ hlt

theorem dominates_asymm_false {N : ℕ} {a b : Miner} {mask : ℕ}
    (h : dominates N a b mask = true) : dominates N b a mask = false := by
  rw [Bool.eq_false_iff]
  intro hba
  rcases (dominates_true_iff N a b mask).mp h with ⟨hall, i, hi, hbit, hlt⟩
  rcases (dominates_true_iff N b a mask).mp hba with ⟨hall', -⟩
  exact absurd hlt (not_lt.mpr (hall' i hi hbit))

theorem dominates_trans {N : ℕ} {a b c : Miner} {mask : ℕ}
    (hab : dominates N a b mask = true) (hbc : dominates N b c mask = true) :
    dominates N a c mask = true := by
  rcases (dominates_true_iff N a b mask).mp hab with ⟨hab1, -⟩
  rcases (dominates_true_iff N b c mask).mp hbc with ⟨hbc1, i, hi, hbit, hlt⟩
  refine (dominates_true_iff N a c mask).mpr ⟨?_, i, hi, hbit, lt_of_lt_of_le hlt (hab1 i hi hbit)⟩
  intro j hj hbj
  exact le_trans (hbc1 j hj hbj) (hab1 j hj hbj)

/-- A finite non-empty list always has a member not dominated by any member
(the strict partial order `dominates` admits maximal elements). -/
theorem exists_not_dominated (N : ℕ) (mask : ℕ) :
    ∀ l : List Miner, l ≠ [] → ∃ a ∈ l, ∀ b ∈ l, dominates N b a mask = false := by
  intro l
  induction l with
  | nil => intro h; exact absurd rfl h
  | cons x xs ih =>
    intro _
    by_cases hxs : xs = []
    · subst hxs
      exact ⟨x, List.mem_cons_self x [], by
        intro b hb
        rcases List.mem_cons.mp hb with rfl | hb
        · exact dominates_self_false N b mask
        · exact absurd hb (List.not_mem_nil b)⟩
    · obtain ⟨a, ha, hmax⟩ := ih hxs
      by_cases hx : dominates N x a mask = true
      · refine ⟨x, List.mem_cons_self x xs, ?_⟩
        intro b hb
        rcases List.mem_cons.mp hb with rfl | hb
        · exact dominates_self_false N b mask
        · rw [Bool.eq_false_iff]
          intro hbx
          have hba := dominates_trans hbx hx
          rw [hmax b hb] at hba
          exact Bool.false_ne_true hba
      · refine ⟨a, List.mem_cons_of_mem x ha, ?_⟩
        intro b hb
        rcases List.mem_cons.mp hb with rfl | hb
        · exact Bool.eq_false_iff.mpr hx
        · exact hmax b hb

theorem mem_nonDominatedOf {N : ℕ} {miners : List Miner} {mask : ℕ} {a : Miner} :
    a ∈ nonDominatedOf N miners mask ↔
      a ∈ candidatesOf N miners mask ∧
        ∀ b ∈ candidatesOf N miners mask, dominates N b a mask = false := by
  unfold nonDominatedOf
  simp only [List.mem_filter, Bool.not_eq_true', List.any_eq_false, Bool.not_eq_true]

theorem nonDominatedOf_ne_nil {N : ℕ} {miners : List Miner} {mask : ℕ}
    (h : candidatesOf N miners mask ≠ []) : nonDominatedOf N miners mask ≠ [] := by
  obtain ⟨a, ha, hmax⟩ := exists_not_dominated N mask (candidatesOf N miners mask) h
  exact List.ne_nil_of_mem (mem_nonDominatedOf.mpr ⟨ha, hmax⟩)

/-!
## The spec-side tie-break order

The claimed tie-break ranks non-dominated candidates by the 4-tuple
(weight, pts, subset-score-sum, model name), lexicographically: higher
weight first, then higher pts, then higher sum, and finally *ascending*
model name (so the lexicographically-largest tuple carries the least name).
-/

/-- Generic strict lexicographic combination of a linear order with a tail
order. -/
def lexLt {α β : Type} [LT α] (f : β → β → Prop) (x y : α × β) : Prop :=
  x.1 < y.1 ∨ (x.1 = y.1 ∧ f x.2 y.2)

theorem lexLt_irrefl {α β : Type} [Preorder α] (f : β → β → Prop)
    (hf : ∀ b, ¬ f b b) (x : α × β) : ¬ lexLt f x x := by
  rintro (h | ⟨-, h⟩)
  · exact lt_irrefl _ h
  · exact hf _ h

theorem lexLt_trans {α β : Type} [Preorder α] (f : β → β → Prop)
    (hf : ∀ x y z : β, f x y → f y z → f x z)
    {x y z : α × β} (h1 : lexLt f x y) (h2 : lexLt f y z) : lexLt f x z := by
  rcases h1 with h1 | ⟨e1, h1⟩ <;> rcases h2 with h2 | ⟨e2, h2⟩
  · exact Or.inl (lt_trans h1 h2)
  · exact Or.inl (e2 ▸ h1)
  · exact Or.inl (e1 ▸ h2)
  · exact Or.inr ⟨e1.trans e2, hf _ _ _ h1 h2⟩

theorem lexLt_trichotomy {α β : Type} [LinearOrder α] (f : β → β → Prop)
    (hf : ∀ x y : β, f x y ∨ x = y ∨ f y x)
    (x y : α × β) : lexLt f x y ∨ x = y ∨ lexLt f y x := by
  rcases lt_trichotomy x.1 y.1 with h | h | h
  · exact Or.inl (Or.inl h)
  · rcases hf x.2 y.2 with h2 | h2 | h2
    · exact Or.inl (Or.inr ⟨h, h2⟩)
    · exact Or.inr (Or.inl (Prod.ext h h2))
    · exact Or.inr (Or.inr (Or.inr ⟨h.symm, h2⟩))
  · exact Or.inr (Or.inr (Or.inl h))

/-- Name order for the last tie-break level: the *smaller* (alphabetically
earlier) name ranks higher, so as a "ranks below" relation the larger name
is below. -/
def nameDescLt (s t : String) : Prop :=
  t < s

/-- The claim's strict "ranks strictly below" order on 4-tuples
(weight, pts, sum, lowercased name): lower weight first, at equal weight
lower pts, then lower sum, then *later* alphabetical name. -/
def specTupleLt (x y : WithBot ℚ × WithBot ℚ × WithBot ℚ × String) : Prop :=
  x.1 < y.1 ∨ (x.1 = y.1 ∧ (x.2.1 < y.2.1 ∨ (x.2.1 = y.2.1 ∧
    (x.2.2.1 < y.2.2.1 ∨ (x.2.2.1 = y.2.2.1 ∧ y.2.2.2 < x.2.2.2)))))

theorem specTupleLt_eq : specTupleLt = lexLt (lexLt (lexLt nameDescLt)) := rfl

theorem specTupleLt_irrefl (x : WithBot ℚ × WithBot ℚ × WithBot ℚ × String) :
    ¬ specTupleLt x x := by
  rw [specTupleLt_eq]
  exact lexLt_irrefl _ (lexLt_irrefl _ (lexLt_irrefl _ (fun s => lt_irrefl s))) x

theorem specTupleLt_trans {x y z : WithBot ℚ × WithBot ℚ × WithBot ℚ × String}
    (h1 : specTupleLt x y) (h2 : specTupleLt y z) : specTupleLt x z := by
  rw [specTupleLt_eq] at *
  refine lexLt_trans _ (fun a b c => lexLt_trans _ (fun a b c => lexLt_trans _ ?_) ) h1 h2
  exact fun a b c hab hbc => lt_trans hbc hab

theorem specTupleLt_trichotomy (x y : WithBot ℚ × WithBot ℚ × WithBot ℚ × String) :
    specTupleLt x y ∨ x = y ∨ specTupleLt y x := by
  rw [specTupleLt_eq]
  refine lexLt_trichotomy _ (lexLt_trichotomy _ (lexLt_trichotomy _ ?_)) x y
  intro s t
  rcases lt_trichotomy s t with h | h | h
  · exact Or.inr (Or.inr h)
  · exact Or.inr (Or.inl h)
  · exact Or.inl h

/-- The extended tuple read off a source tie-break key. -/
def specTupleOfKey (k : TKey) : WithBot ℚ × WithBot ℚ × WithBot ℚ × String :=
  (toE k.w, toE k.p, toE k.s, k.m)

/-- The claim's sum component: the sum of the miner's scores over exactly the
masked environments, `-Infinity` (`⊥`) when one of them is missing. -/
def specSum (N : ℕ) (mn : Miner) (mask : ℕ) : WithBot ℚ :=
  if ∀ i, i < N → mask.testBit i = true → (envVal mn i).isSome = true then
    ((((List.range N).filter (fun i => mask.testBit i)).map
      (fun i => (envVal mn i).getD 0)).sum : ℚ)
  else ⊥

/-- The claim's 4-tuple for a miner on a subset: weight, pts (null ↦ `⊥`),
the subset-score-sum, and the lowercased model name. -/
def specTuple (N : ℕ) (mn : Miner) (mask : ℕ) :
    WithBot ℚ × WithBot ℚ × WithBot ℚ × String :=
  (toE mn.weight, toE mn.pts, specSum N mn mask, mn.model.toLower)

/-- Closed form of the `sumScores` loop. -/
theorem sumScoresAux_eq (m : Miner) (mask : ℕ) (l : List ℕ) (acc : ℚ) :
    sumScoresAux m mask l acc =
      if ∀ i ∈ l, mask.testBit i = true → (envVal m i).isSome = true then
        some (acc + ((l.filter (fun i => mask.testBit i)).map
          (fun i => (envVal m i).getD 0)).sum)
      else none := by
  induction l generalizing acc with
  | nil => simp [sumScoresAux]
  | cons i rest ih =>
    simp only [sumScoresAux]
    by_cases hb : mask.testBit i = true
    · rw [if_pos hb]
      cases hv : envVal m i with
      | none =>
        rw [if_neg]
        intro hall
        have := hall i (List.mem_cons_self i rest) hb
        rw [hv] at this
        exact Bool.false_ne_true this
      | some v =>
        show sumScoresAux m mask rest (acc + v) = _
        rw [ih]
        by_cases hrest : ∀ i ∈ rest, mask.testBit i = true → (envVal m i).isSome = true
        · rw [if_pos hrest, if_pos]
          · congr 1
            rw [List.filter_cons_of_pos (by simpa using hb), List.map_cons, List.sum_cons,
              hv]
            simp [add_assoc]
          · intro j hj hbj
            rcases List.mem_cons.mp hj with rfl | hj
            · rw [hv]; rfl
            · exact hrest j hj hbj
        · rw [if_neg hrest, if_neg]
          intro hall
          exact hrest (fun j hj hbj => hall j (List.mem_cons_of_mem i hj) hbj)
    · rw [if_neg hb, ih]
      by_cases hrest : ∀ i ∈ rest, mask.testBit i = true → (envVal m i).isSome = true
      · rw [if_pos hrest, if_pos]
        · congr 2
          rw [List.filter_cons_of_neg (by simpa using hb)]
        · intro j hj hbj
          rcases List.mem_cons.mp hj with rfl | hj
          · exact absurd hbj hb
          · exact hrest j hj hbj
      · rw [if_neg hrest, if_neg]
        intro hall
        exact hrest (fun j hj hbj => hall j (List.mem_cons_of_mem i hj) hbj)

/-- The claim's sum component agrees with the source's `sumScores` under the
`-Infinity` reading. -/
theorem specSum_eq_sumScores (N : ℕ) (mn : Miner) (mask : ℕ) :
    specSum N mn mask = toE (sumScores N mn mask) := by
  unfold specSum sumScores
  rw [sumScoresAux_eq]
  by_cases h : ∀ i ∈ List.range N, mask.testBit i = true → (envVal mn i).isSome = true
  · rw [if_pos h, if_pos (by simpa [List.mem_range] using h)]
    simp [toE]
  · rw [if_neg h, if_neg (by simpa [List.mem_range] using h)]
    rfl

/-- The claim's tuple is the extended reading of the source's key. -/
theorem specTuple_eq_key (N : ℕ) (mn : Miner) (mask : ℕ) :
    specTuple N mn mask = specTupleOfKey (mkKey N mn mask) := by
  unfold specTuple specTupleOfKey mkKey
  rw [specSum_eq_sumScores]

/-- The source's `compareTupleDesc(k1, k2) > 0` test is exactly "k2's tuple
ranks strictly below k1's" in the claimed order. -/
theorem cmpTupleDescPos_iff (k1 k2 : TKey) :
    cmpTupleDescPos k1 k2 = true ↔ specTupleLt (specTupleOfKey k2) (specTupleOfKey k1) := by
  unfold cmpTupleDescPos specTupleOfKey specTupleLt
  by_cases hw : k1.w = k2.w
  · rw [if_neg (by simp [hw])]
    have hwE : toE k2.w = toE k1.w := by rw [hw]
    by_cases hp : k1.p = k2.p
    · rw [if_neg (by simp [hp])]
      have hpE : toE k2.p = toE k1.p := by rw [hp]
      by_cases hs : k1.s = k2.s
      · rw [if_neg (by simp [hs])]
        have hsE : toE k2.s = toE k1.s := by rw [hs]
        simp [hwE, hpE, hsE]
      · rw [if_pos (by simp [hs])]
        rw [eltB_eq_true_iff]
        constructor
        · intro h
          exact Or.inr ⟨hwE, Or.inr ⟨hpE, Or.inl h⟩⟩
        · rintro (h | ⟨-, h | ⟨-, h | ⟨he, -⟩⟩⟩)
          · rw [hwE] at h; exact absurd h (lt_irrefl _)
          · rw [hpE] at h; exact absurd h (lt_irrefl _)
          · exact h
          · exact absurd (toE_inj.mp he) (fun e => hs e.symm)
    · rw [if_pos (by simp [hp])]
      rw [eltB_eq_true_iff]
      constructor
      · intro h
        exact Or.inr ⟨hwE, Or.inl h⟩
      · rintro (h | ⟨-, h | ⟨he, -⟩⟩)
        · rw [hwE] at h; exact absurd h (lt_irrefl _)
        · exact h
        · exact absurd (toE_inj.mp he) (fun e => hp e.symm)
  · rw [if_pos (by simp [hw])]
    rw [eltB_eq_true_iff]
    constructor
    · intro h
      exact Or.inl h
    · rintro (h | ⟨he, -⟩)
      · exact h
      · exact absurd (toE_inj.mp he) (fun e => hw e.symm)

/-- The selection fold, started from a current best, returns a maximal
element (in the claimed tuple order) of the remaining list together with the
previous best. -/
theorem tieBreakFold_invariant (N : ℕ) (mask : ℕ) :
    ∀ (l : List Miner) (b : Miner),
      ∃ w, (l.foldl
          (fun best m =>
            let key := mkKey N m mask
            match best with
            | none => some (m, key)
            | some (bm, bk) =>
              if cmpTupleDescPos key bk then some (m, key) else some (bm, bk))
          (some (b, mkKey N b mask))) = some (w, mkKey N w mask) ∧
        (w = b ∨ w ∈ l) ∧
        (¬ specTupleLt (specTuple N w mask) (specTuple N b mask)) ∧
        ∀ m ∈ l, ¬ specTupleLt (specTuple N w mask) (specTuple N m mask) := by
  intro l
  induction l with
  | nil =>
    intro b
    exact ⟨b, rfl, Or.inl rfl, specTupleLt_irrefl _, by simp⟩
  | cons m rest ih =>
    intro b
    simp only [List.foldl_cons]
    by_cases hc : cmpTupleDescPos (mkKey N m mask) (mkKey N b mask) = true
    · rw [if_pos hc]
      have hbm : specTupleLt (specTuple N b mask) (specTuple N m mask) := by
        rw [specTuple_eq_key, specTuple_eq_key]
        exact (cmpTupleDescPos_iff _ _).mp hc
      obtain ⟨w, hfold, hmem, hwm, hall⟩ := ih m
      refine ⟨w, hfold, ?_, ?_, ?_⟩
      · rcases hmem with rfl | hmem
        · exact Or.inr (List.mem_cons_self _ _)
        · exact Or.inr (List.mem_cons_of_mem _ hmem)
      · intro hwb
        rcases specTupleLt_trichotomy (specTuple N w mask) (specTuple N m mask) with
          h | h | h
        · exact hwm h
        · rw [h] at hwb
          exact specTupleLt_irrefl _ (specTupleLt_trans hwb hbm)
        · exact specTupleLt_irrefl _ (specTupleLt_trans (specTupleLt_trans h hwb) hbm)
      · intro m' hm'
        rcases List.mem_cons.mp hm' with rfl | hm'
        · exact hwm
        · exact hall m' hm'
    · rw [if_neg hc]
      have hmb : ¬ specTupleLt (specTuple N b mask) (specTuple N m mask) := by
        rw [specTuple_eq_key, specTuple_eq_key]
        intro h
        exact hc ((cmpTupleDescPos_iff _ _).mpr h)
      obtain ⟨w, hfold, hmem, hwb, hall⟩ := ih b
      refine ⟨w, hfold, ?_, hwb, ?_⟩
      · rcases hmem with rfl | hmem
        · exact Or.inl rfl
        · exact Or.inr (List.mem_cons_of_mem _ hmem)
      · intro m' hm'
        rcases List.mem_cons.mp hm' with rfl | hm'
        · intro hwm
          rcases specTupleLt_trichotomy (specTuple N w mask) (specTuple N b mask) with
            h | h | h
          · exact hwb h
          · rw [h] at hwm
            exact hmb hwm
          · exact hmb (specTupleLt_trans h hwm)
        · exact hall m' hm'

/-- The tie-break fold over a non-empty frontier returns a member whose
claimed 4-tuple is maximal. -/
theorem tieBreakFold_max (N : ℕ) (mask : ℕ) (nd : List Miner) (h : nd ≠ []) :
    ∃ w, tieBreakFold N mask nd = some (w, mkKey N w mask) ∧ w ∈ nd ∧
      ∀ m ∈ nd, ¬ specTupleLt (specTuple N w mask) (specTuple N m mask) := by
  match nd, h with
  | m :: rest, _ =>
    unfold tieBreakFold
    simp only [List.foldl_cons]
    obtain ⟨w, hfold, hmem, hwm, hall⟩ := tieBreakFold_invariant N mask rest m
    refine ⟨w, hfold, ?_, ?_⟩
    · rcases hmem with rfl | hmem
      · exact List.mem_cons_self _ _
      · exact List.mem_cons_of_mem _ hmem
    · intro m' hm'
      rcases List.mem_cons.mp hm' with rfl | hm'
      · exact hwm
      · exact hall m' hm'

/-!
## Existence and maximality of the selected winner
-/

theorem candidatesOf_nil_of_miners_nil {N mask : ℕ} :
    candidatesOf N ([] : List Miner) mask = [] := rfl

theorem nonDominatedOf_subset_candidates {N mask : ℕ} {miners : List Miner} :
    ∀ a ∈ nonDominatedOf N miners mask, a ∈ candidatesOf N miners mask :=
  fun _ ha => (mem_nonDominatedOf.mp ha).1

/-- With a non-empty frontier, `bestByPareto` returns a frontier member whose
claimed 4-tuple is maximal among the frontier. -/
theorem bestByPareto_max (N : ℕ) (miners : List Miner) (mask : ℕ)
    (h : nonDominatedOf N miners mask ≠ []) :
    ∃ w, bestByPareto N miners mask = some w ∧ w ∈ nonDominatedOf N miners mask ∧
      ∀ m ∈ nonDominatedOf N miners mask,
        ¬ specTupleLt (specTuple N w mask) (specTuple N m mask) := by
  have hc : candidatesOf N miners mask ≠ [] := by
    intro hc
    exact h (by simp [nonDominatedOf, hc])
  have hm : miners ≠ [] := by
    intro hm
    subst hm
    exact hc rfl
  obtain ⟨w, hfold, hmem, hall⟩ := tieBreakFold_max N mask _ h
  refine ⟨w, ?_, hmem, hall⟩
  unfold bestByPareto
  rw [if_neg hm]
  simp only [if_neg hc, hfold, Option.map_some']

/-- `bestByPareto` yields a winner exactly when the candidate filter keeps
someone. -/
theorem bestByPareto_isSome_iff (N : ℕ) (miners : List Miner) (mask : ℕ) :
    (bestByPareto N miners mask).isSome = true ↔ candidatesOf N miners mask ≠ [] := by
  constructor
  · intro h hc
    have hnone : bestByPareto N miners mask = none := by
      unfold bestByPareto
      by_cases hm : miners = []
      · rw [if_pos hm]
      · rw [if_neg hm]
        simp only [if_pos hc]
    rw [hnone] at h
    exact Bool.false_ne_true h
  · intro hc
    obtain ⟨w, hw, -, -⟩ := bestByPareto_max N miners mask (nonDominatedOf_ne_nil hc)
    rw [hw]
    rfl

theorem hasAnyScore_iff (N : ℕ) (m : Miner) (mask : ℕ) :
    hasAnyScore N m mask = true ↔
      ∃ i, i < N ∧ mask.testBit i = true ∧ (envVal m i).isSome = true := by
  unfold hasAnyScore
  simp [List.any_eq_true, List.mem_range, Bool.and_eq_true]

theorem candidatesOf_ne_nil_iff (N : ℕ) (miners : List Miner) (mask : ℕ) :
    candidatesOf N miners mask ≠ [] ↔ ∃ m ∈ miners, hasAnyScore N m mask = true := by
  unfold candidatesOf
  rw [ne_eq, List.filter_eq_nil_iff]
  push_neg
  simp

theorem bestByPareto_isSome_eq_any (N : ℕ) (miners : List Miner) (mask : ℕ) :
    (bestByPareto N miners mask).isSome =
      miners.any (fun m => hasAnyScore N m mask) := by
  rcases hb : (bestByPareto N miners mask).isSome with _ | _
  · rcases ha : miners.any (fun m => hasAnyScore N m mask) with _ | _
    · rfl
    · exfalso
      have hc : candidatesOf N miners mask ≠ [] :=
        (candidatesOf_ne_nil_iff N miners mask).mpr (by simpa [List.any_eq_true] using ha)
      rw [(bestByPareto_isSome_iff N miners mask).mpr hc] at hb
      exact Bool.noConfusion hb
  · have hc := (bestByPareto_isSome_iff N miners mask).mp hb
    have hany := (candidatesOf_ne_nil_iff N miners mask).mp hc
    exact (List.any_eq_true.mpr (by simpa using hany)).symm

/-!
## The subset enumeration (`rawColumns`)
-/

/-- The masks that contribute a record are exactly the masks of
`1 .. 2^N - 1` whose `bestByPareto` is non-null. -/
theorem rawColumns_map_mask_isSome (N : ℕ) (miners : List Miner) (metric : Metric) :
    (rawColumns N miners metric).map SubsetCol.mask =
      (List.range' 1 (2 ^ N - 1)).filter
        (fun mask => (bestByPareto N miners mask).isSome) := by
  have hrewrite : ∀ l : List ℕ,
      (l.filterMap (fun mask =>
        match bestByPareto N miners mask with
        | none => none
        | some w =>
          some { mask := mask, size := popcount mask,
                 value := metricValue N metric w mask, winnerId := w.id,
                 winnerLabel := w.model : SubsetCol })).map SubsetCol.mask
        = l.filter (fun mask => (bestByPareto N miners mask).isSome) := by
    intro l
    induction l with
    | nil => rfl
    | cons mask rest ih =>
      rw [List.filterMap_cons, List.filter_cons]
      cases hb : bestByPareto N miners mask with
      | none => simpa [hb] using ih
      | some w => simp [hb, ih]
  by_cases hg : N = 0 ∨ miners = []
  · unfold rawColumns
    rw [if_pos hg]
    rcases hg with h0 | hm
    · subst h0
      simp
    · subst hm
      simp only [List.map_nil]
      symm
      rw [List.filter_eq_nil_iff]
      intro mask _
      simp [bestByPareto]
  · unfold rawColumns
    rw [if_neg hg]
    exact hrewrite _

theorem rawColumns_length_le (N : ℕ) (miners : List Miner) (metric : Metric) :
    (rawColumns N miners metric).length ≤ 2 ^ N - 1 := by
  unfold rawColumns
  by_cases hg : N = 0 ∨ miners = []
  · rw [if_pos hg]
    exact Nat.zero_le _
  · rw [if_neg hg]
    calc (List.filterMap _ (List.range' 1 (2 ^ N - 1))).length
        ≤ (List.range' 1 (2 ^ N - 1)).length := List.length_filterMap_le _ _
      _ = 2 ^ N - 1 := by simp

/-!
## The top-M truncation (`columns`)
-/

/-- Size of a displayed column (subset size for both variants). -/
def colSize : Column → ℕ
  | .subset c => c.size
  | .other s _ _ => s

/-- Is this column an `other` bucket of size `s`? -/
def isOtherOfSize (s : ℕ) : Column → Bool
  | .other t _ _ => t = s
  | .subset _ => false

theorem countP_isOther_filterMap_le (s : ℕ) (g : ℕ → Option Column)
    (hg : ∀ t c, g t = some c → isOtherOfSize s c = true → t = s) :
    ∀ sizes : List ℕ,
      (sizes.filterMap g).countP (isOtherOfSize s) ≤ sizes.count s := by
  intro sizes
  induction sizes with
  | nil => simp
  | cons t rest ih =>
    rw [List.filterMap_cons, List.count_cons]
    cases hgt : g t with
    | none =>
      exact le_trans ih (Nat.le_add_right _ _)
    | some c =>
      rw [List.countP_cons]
      by_cases hoc : isOtherOfSize s c = true
      · have ht : t = s := hg t c hgt hoc
        rw [if_pos hoc, if_pos (by simp [ht])]
        exact Nat.add_le_add ih (le_refl 1)
      · rw [if_neg hoc]
        simp only [Nat.add_zero]
        exact le_trans ih (Nat.le_add_right _ _)

/-- Every folded bucket is an `other` record. -/
theorem foldOthers_all_other (rest : List SubsetCol) :
    ∀ col ∈ foldOthers rest, ∃ s v c, col = Column.other s v c := by
  intro col hcol
  unfold foldOthers at hcol
  obtain ⟨s, -, hs⟩ := List.mem_filterMap.mp hcol
  by_cases hc : 0 < (restGroup rest s).length ∧ 0 < sumVals (restGroup rest s)
  · rw [if_pos hc] at hs
    exact ⟨s, _, _, (Option.some_injective _ hs).symm⟩
  · rw [if_neg hc] at hs
    exact absurd hs (Option.noConfusion)

/-- A folded bucket's fields are the group sum, the group cardinality, and a
positive value. -/
theorem foldOthers_mem_elim {rest : List SubsetCol} {s : ℕ} {v : ℚ} {c : ℕ}
    (h : Column.other s v c ∈ foldOthers rest) :
    v = sumVals (restGroup rest s) ∧ c = (restGroup rest s).length ∧ 0 < v := by
  unfold foldOthers at h
  obtain ⟨t, -, ht⟩ := List.mem_filterMap.mp h
  by_cases hc : 0 < (restGroup rest t).length ∧ 0 < sumVals (restGroup rest t)
  · rw [if_pos hc] at ht
    have := Option.some_injective _ ht
    cases this
    exact ⟨rfl, rfl, hc.2⟩
  · rw [if_neg hc] at ht
    exact absurd ht (Option.noConfusion)

/-- Completeness of the fold: a size present in the tail with positive group
sum yields its bucket. -/
theorem foldOthers_mem_intro {rest : List SubsetCol} {s : ℕ}
    (hmem : s ∈ rest.map SubsetCol.size) (hpos : 0 < sumVals (restGroup rest s)) :
    Column.other s (sumVals (restGroup rest s)) ((restGroup rest s).length)
      ∈ foldOthers rest := by
  unfold foldOthers
  refine List.mem_filterMap.mpr ⟨s, ?_, ?_⟩
  · rw [(List.mergeSort_perm _ _).mem_iff, List.mem_dedup]
    exact hmem
  · obtain ⟨col, hcol, hsz⟩ := List.mem_map.mp hmem
    have hg : col ∈ restGroup rest s := by
      unfold restGroup
      rw [List.mem_filter]
      exact ⟨hcol, by simp [hsz]⟩
    have hlen : 0 < (restGroup rest s).length :=
      List.length_pos.mpr (List.ne_nil_of_mem hg)
    rw [if_pos ⟨hlen, hpos⟩]

/-- There is at most one bucket per size. -/
theorem foldOthers_countP_le_one (rest : List SubsetCol) (s : ℕ) :
    (foldOthers rest).countP (isOtherOfSize s) ≤ 1 := by
  unfold foldOthers
  have hnodup : (((rest.map SubsetCol.size).dedup).mergeSort
      (fun a b => decide (a ≤ b))).Nodup :=
    ((List.mergeSort_perm _ _).nodup_iff).mpr (List.nodup_dedup _)
  refine le_trans (countP_isOther_filterMap_le s _ ?_ _) ?_
  · intro t c htc hoc
    by_cases hc : 0 < (restGroup rest t).length ∧ 0 < sumVals (restGroup rest t)
    · rw [if_pos hc] at htc
      have := Option.some_injective _ htc
      subst this
      simpa [isOtherOfSize] using hoc
    · rw [if_neg hc] at htc
      exact absurd htc (Option.noConfusion)
  · exact List.nodup_iff_count_le_one.mp hnodup s

/-!
## Normalizer field characterization
-/

theorem toRawMiner_pts (cols envs : List String) (row : List Cell) :
    (toRawMiner cols envs row).pts =
      match cellAt row (colIdx cols "Pts") with
      | none => none
      | some .null => none
      | some c => some (jsToNumberCell (some c)) := rfl

theorem toRawMiner_weight (cols envs : List String) (row : List Cell) :
    (toRawMiner cols envs row).weight =
      match cellAt row (colIdx cols "Wgt") with
      | none => none
      | some .null => none
      | some c => some (jsToNumberCell (some c)) := rfl

theorem toRawMiner_env (cols envs : List String) (row : List Cell) :
    (toRawMiner cols envs row).env =
      envs.map (fun e => parseScoreAnyCell (cellAt row (colIdx cols e))) := rfl

/-!
## Concrete data for the claimed scenario and the witnesses
-/

/-- M1 of the spec's concrete scenario: SAT 80, ABD 60, weight 1, no pts. -/
def minerM1 : Miner := ⟨"1|M1", some 1, "M1", some 1, none, [some 80, some 60]⟩

/-- M2 of the spec's concrete scenario: SAT 60, ABD 90, weight 1, no pts. -/
def minerM2 : Miner := ⟨"2|M2", some 2, "M2", some 1, none, [some 60, some 90]⟩

/-- M3 of the spec's concrete scenario: SAT 50, ABD 50, weight 5, no pts. -/
def minerM3 : Miner := ⟨"3|M3", some 3, "M3", some 5, none, [some 50, some 50]⟩

/-- A miner with no score on the first environment but a strong second
score. -/
def minerNoE0 : Miner := ⟨"4|A", some 4, "A", none, none, [none, some 5]⟩

/-- A miner that also lacks the first environment and has a weaker second
score. -/
def minerNoE0Weak : Miner := ⟨"5|B", some 5, "B", none, none, [none, some 3]⟩

/-- A miner with both environments defined. -/
def minerFull : Miner := ⟨"6|C", some 6, "C", none, none, [some 1, some 9]⟩

/-- A size-1 subset column of value 5. -/
def colA : SubsetCol := ⟨1, 1, 5, "1|W", "W"⟩

/-- A size-1 subset column of value 3. -/
def colB : SubsetCol := ⟨2, 1, 3, "1|W", "W"⟩

/-!
## The claims
-/

unseal Rat.add Rat.mul Rat.inv in
/-- C1: on environments `[SAT, ABD]` (indices 0 and 1) with miners M1, M2
and M3 as specified, `bestByPareto` selects M1 for the subset `{SAT}`
(mask 1), M2 for `{ABD}` (mask 2) and M2 for `{SAT, ABD}` (mask 3); M1
Pareto-dominates M3 on mask 3 (so M3's weight 5 never enters the
tie-break), and the frontier of mask 3 is exactly `[M1, M2]`, whose
weight and pts components tie, leaving the subset-score sums 140 < 150 to
decide for M2. -/
theorem concrete_scenario_winners :
    bestByPareto 2 [minerM1, minerM2, minerM3] 1 = some minerM1 ∧
    bestByPareto 2 [minerM1, minerM2, minerM3] 2 = some minerM2 ∧
    bestByPareto 2 [minerM1, minerM2, minerM3] 3 = some minerM2 ∧
    dominates 2 minerM1 minerM3 3 = true ∧
    nonDominatedOf 2 [minerM1, minerM2, minerM3] 3 = [minerM1, minerM2] ∧
    sumScores 2 minerM1 3 = some 140 ∧
    sumScores 2 minerM2 3 = some 150 := by
  decide

/-- C2: `dominates(envs, A, B, mask)` holds iff, over the environment
indices below `envs.length` whose bit is set in `mask`, A's score is ≥ B's
on every such environment and strictly greater on at least one, where a
`null`/absent score reads as `-Infinity` (`⊥` in `WithBot ℚ`). -/
theorem dominates_iff_pareto (N : ℕ) (a b : Miner) (mask : ℕ) :
    dominates N a b mask = true ↔
      ((∀ i, i < N → mask.testBit i = true → toE (envVal b i) ≤ toE (envVal a i)) ∧
        (∃ i, i < N ∧ mask.testBit i = true ∧ toE (envVal b i) < toE (envVal a i))) :=
  dominates_true_iff N a b mask

/-- C3: whenever the non-dominated candidate set of a subset is non-empty,
`bestByPareto` returns a member of it whose 4-tuple (weight, pts,
subset-score-sum, model name) is maximal for the claimed lexicographic
order: higher weight, then higher pts, then higher subset-score-sum (with
`⊥` for a missing component or a missing masked score), then the
alphabetically-least lowercased model name.  The statement ranges over the
spec's data model (weight and pts are a finite number or null); a `NaN`
weight, reachable only through the normalizer's bare `Number` coercion, is
outside that data model (see the C8 record). -/
theorem bestByPareto_selects_lex_max (N : ℕ) (miners : List Miner) (mask : ℕ)
    (h : nonDominatedOf N miners mask ≠ []) :
    ∃ w, bestByPareto N miners mask = some w ∧ w ∈ nonDominatedOf N miners mask ∧
      ∀ m ∈ nonDominatedOf N miners mask,
        ¬ specTupleLt (specTuple N w mask) (specTuple N m mask) :=
  bestByPareto_max N miners mask h

unseal Rat.add Rat.mul Rat.inv in
/-- Witness for C3 at the concrete scenario, subset `{SAT, ABD}`. -/
theorem bestByPareto_selects_lex_max_witness :
    nonDominatedOf 2 [minerM1, minerM2, minerM3] 3 ≠ [] ∧
    (∃ w, bestByPareto 2 [minerM1, minerM2, minerM3] 3 = some w ∧
      w ∈ nonDominatedOf 2 [minerM1, minerM2, minerM3] 3 ∧
      ∀ m ∈ nonDominatedOf 2 [minerM1, minerM2, minerM3] 3,
        ¬ specTupleLt (specTuple 2 w 3) (specTuple 2 m 3)) :=
  ⟨by decide, bestByPareto_selects_lex_max 2 [minerM1, minerM2, minerM3] 3 (by decide)⟩

/-- C4 counterexample: with `mask = 3`, miner A (`minerNoE0`) has a `null`
score on environment 0 — whose bit is set — and still dominates miner B
(`minerNoE0Weak`), because B is also `null` there (both read `-Infinity`)
and A is strictly better on environment 1.  The claim as stated is
therefore false on the code. -/
theorem absent_score_dominates_cex :
    envVal minerNoE0 0 = none ∧ Nat.testBit 3 0 = true ∧ 0 < 2 ∧
      dominates 2 minerNoE0 minerNoE0Weak 3 = true := by
  decide

/-- C4 as amended: if A has a `null` score on some masked environment *on
which B's score is defined*, then A does not dominate B on that mask. -/
theorem dominates_absent_vs_defined (N : ℕ) (a b : Miner) (mask i : ℕ)
    (hi : i < N) (hbit : mask.testBit i = true)
    (ha : envVal a i = none) (hb : envVal b i ≠ none) :
    dominates N a b mask = false := by
  rw [Bool.eq_false_iff]
  intro hdom
  rcases (dominates_true_iff N a b mask).mp hdom with ⟨hall, -⟩
  have hle := hall i hi hbit
  rw [ha] at hle
  cases hbv : envVal b i with
  | none => exact hb hbv
  | some q =>
    rw [hbv] at hle
    simp only [toE] at hle
    exact WithBot.not_coe_le_bot q hle

/-- Witness for the amended C4: A lacks environment 0, B has it, so A does
not dominate B on mask 3. -/
theorem dominates_absent_vs_defined_witness :
    0 < 2 ∧ Nat.testBit 3 0 = true ∧ envVal minerNoE0 0 = none ∧
      envVal minerFull 0 ≠ none ∧
      dominates 2 minerNoE0 minerFull 3 = false :=
  ⟨by decide, by decide, by decide, by decide,
    dominates_absent_vs_defined 2 minerNoE0 minerFull 3 0 (by decide) (by decide)
      (by decide) (by decide)⟩

/-- C5: the engine enumerates exactly the masks `1 .. 2^N - 1`; a mask
contributes a record iff some miner has a defined (finite) score on at
least one environment of the mask; and the output never exceeds `2^N - 1`
records. -/
theorem subset_enumeration_spec (N : ℕ) (miners : List Miner) (metric : Metric) :
    ((rawColumns N miners metric).map SubsetCol.mask =
      (List.range' 1 (2 ^ N - 1)).filter
        (fun mask => miners.any (fun m => hasAnyScore N m mask))) ∧
    (∀ m mask, hasAnyScore N m mask = true ↔
      ∃ i, i < N ∧ mask.testBit i = true ∧ (envVal m i).isSome = true) ∧
    (rawColumns N miners metric).length ≤ 2 ^ N - 1 := by
  refine ⟨?_, fun m mask => hasAnyScore_iff N m mask, rawColumns_length_le N miners metric⟩
  rw [rawColumns_map_mask_isSome]
  exact List.filter_congr (fun mask _ => bestByPareto_isSome_eq_any N miners mask)

/-- C6: no miner dominates itself, and dominance is antisymmetric: if A
dominates B on a subset then B does not dominate A on that subset. -/
theorem dominates_irrefl_antisymm :
    (∀ (N : ℕ) (a : Miner) (mask : ℕ), dominates N a a mask = false) ∧
    (∀ (N : ℕ) (a b : Miner) (mask : ℕ),
      dominates N a b mask = true → dominates N b a mask = false) :=
  ⟨dominates_self_false, fun _ _ _ _ h => dominates_asymm_false h⟩

unseal Rat.add Rat.mul Rat.inv in
/-- C7: `parseScoreAny` is total with a finite-or-null result, and parses
the claimed concrete inputs: `"81.9*"` and `"81.9/100"` to `81.9`,
`null` and `"not-a-number"` to `null`. -/
theorem parseScoreAny_roundtrip :
    (∀ v : Cell, parseScoreAny v = none ∨ ∃ q : ℚ, parseScoreAny v = some q) ∧
    parseScoreAny (Cell.str "81.9*") = some (819 / 10) ∧
    parseScoreAny (Cell.str "81.9/100") = some (819 / 10) ∧
    parseScoreAny Cell.null = none ∧
    parseScoreAny (Cell.str "not-a-number") = none ∧
    parseScoreAny (Cell.str "Infinity") = none := by
  refine ⟨?_, by decide, by decide, rfl, by decide, by decide⟩
  intro v
  cases hv : parseScoreAny v with
  | none => exact Or.inl rfl
  | some q => exact Or.inr ⟨q, rfl⟩

unseal Rat.add Rat.mul Rat.inv in
/-- C8 counterexample: the normalizer coerces a decorated `Pts` cell with
the bare `Number(...)` conversion, so the row
`[1, "m", "81.9*", 1]` under columns `[UID, Model, Pts, Wgt]` yields
`pts = NaN` — a non-finite number, not `null` — refuting the claim that a
malformed `Pts` cell degrades to `null`. -/
theorem normalizer_malformed_pts_cex :
    (toRawMiner ["UID", "Model", "Pts", "Wgt"] []
      [Cell.num 1, Cell.str "m", Cell.str "81.9*", Cell.num 1]).pts
      = some JSNum.nan := by
  decide

/-- C8 as amended: the `Pts` and `Wgt` fields are `null` exactly when the
column is missing or the cell is `null`; a string cell is coerced with
`Number(...)` (so malformed text yields `NaN`, a non-finite value, rather
than `null`); environment cells instead go through `parseScoreAny` and
degrade to `null`; the normalizer is total, so no row or table is ever
aborted. -/
theorem normalizer_pts_wgt_amended (cols envs : List String) (row : List Cell) :
    ((toRawMiner cols envs row).pts = none ↔
      cellAt row (colIdx cols "Pts") = none ∨
        cellAt row (colIdx cols "Pts") = some Cell.null) ∧
    (∀ s, cellAt row (colIdx cols "Pts") = some (Cell.str s) →
      (toRawMiner cols envs row).pts = some (jsStringToNumber s)) ∧
    ((toRawMiner cols envs row).weight = none ↔
      cellAt row (colIdx cols "Wgt") = none ∨
        cellAt row (colIdx cols "Wgt") = some Cell.null) ∧
    (∀ s, cellAt row (colIdx cols "Wgt") = some (Cell.str s) →
      (toRawMiner cols envs row).weight = some (jsStringToNumber s)) ∧
    (toRawMiner cols envs row).env =
      envs.map (fun e => parseScoreAnyCell (cellAt row (colIdx cols e))) := by
  refine ⟨?_, ?_, ?_, ?_, toRawMiner_env cols envs row⟩
  · rw [toRawMiner_pts]
    cases h : cellAt row (colIdx cols "Pts") with
    | none => simp
    | some c => cases c <;> simp [jsToNumberCell]
  · intro s hs
    rw [toRawMiner_pts, hs]
    rfl
  · rw [toRawMiner_weight]
    cases h : cellAt row (colIdx cols "Wgt") with
    | none => simp
    | some c => cases c <;> simp [jsToNumberCell]
  · intro s hs
    rw [toRawMiner_weight, hs]
    rfl

/-- C9: when the sorted column list exceeds the cap, the first `topM`
columns pass through unchanged, everything appended is an `other` bucket,
there is at most one bucket per subset size, every bucket carries the sum
of the folded group's values and the group's cardinality with a positive
value, and every size with positive group sum in the tail does get its
bucket. -/
theorem columns_truncation_spec (sorted : List SubsetCol) (topM : ℕ)
    (h : topM < sorted.length) :
    ((applyTopM sorted topM).take topM = (sorted.take topM).map Column.subset) ∧
    (applyTopM sorted topM =
      (sorted.take topM).map Column.subset ++ foldOthers (sorted.drop topM)) ∧
    (∀ col ∈ foldOthers (sorted.drop topM), ∃ s v c, col = Column.other s v c) ∧
    (∀ s, (applyTopM sorted topM).countP (isOtherOfSize s) ≤ 1) ∧
    (∀ s v c, Column.other s v c ∈ applyTopM sorted topM →
      v = sumVals (restGroup (sorted.drop topM) s) ∧
      c = (restGroup (sorted.drop topM) s).length ∧ 0 < v) ∧
    (∀ s, s ∈ (sorted.drop topM).map SubsetCol.size →
      0 < sumVals (restGroup (sorted.drop topM) s) →
      Column.other s (sumVals (restGroup (sorted.drop topM) s))
        ((restGroup (sorted.drop topM) s).length) ∈ applyTopM sorted topM) := by
  have happ : applyTopM sorted topM =
      (sorted.take topM).map Column.subset ++ foldOthers (sorted.drop topM) := by
    unfold applyTopM
    rw [if_neg (not_le.mpr h)]
  have hlen : ((sorted.take topM).map Column.subset).length = topM := by
    rw [List.length_map, List.length_take]
    exact min_eq_left (le_of_lt h)
  refine ⟨?_, happ, foldOthers_all_other _, ?_, ?_, ?_⟩
  · rw [happ, List.take_append_of_le_length (le_of_eq hlen.symm)]
    rw [List.take_of_length_le (le_of_eq hlen)]
  · intro s
    rw [happ, List.countP_append]
    have h0 : ((sorted.take topM).map Column.subset).countP (isOtherOfSize s) = 0 := by
      rw [List.countP_eq_zero]
      intro col hcol
      obtain ⟨c, -, rfl⟩ := List.mem_map.mp hcol
      simp [isOtherOfSize]
    rw [h0, Nat.zero_add]
    exact foldOthers_countP_le_one _ s
  · intro s v c hmem
    rw [happ] at hmem
    rcases List.mem_append.mp hmem with hmem | hmem
    · obtain ⟨c', -, habs⟩ := List.mem_map.mp hmem
      exact absurd habs (by simp)
    · exact foldOthers_mem_elim hmem
  · intro s hs hpos
    rw [happ]
    exact List.mem_append_right _ (foldOthers_mem_intro hs hpos)

/-- Witness for C9: two size-1 columns with cap 1 fold the second into an
`other` bucket of value 3 and count 1. -/
theorem columns_truncation_spec_witness :
    1 < ([colA, colB] : List SubsetCol).length ∧
    (((applyTopM [colA, colB] 1).take 1 =
        (([colA, colB] : List SubsetCol).take 1).map Column.subset) ∧
      (applyTopM [colA, colB] 1 =
        (([colA, colB] : List SubsetCol).take 1).map Column.subset ++
          foldOthers (([colA, colB] : List SubsetCol).drop 1)) ∧
      (∀ col ∈ foldOthers (([colA, colB] : List SubsetCol).drop 1),
        ∃ s v c, col = Column.other s v c) ∧
      (∀ s, (applyTopM [colA, colB] 1).countP (isOtherOfSize s) ≤ 1) ∧
      (∀ s v c, Column.other s v c ∈ applyTopM [colA, colB] 1 →
        v = sumVals (restGroup (([colA, colB] : List SubsetCol).drop 1) s) ∧
        c = (restGroup (([colA, colB] : List SubsetCol).drop 1) s).length ∧ 0 < v) ∧
      (∀ s, s ∈ (([colA, colB] : List SubsetCol).drop 1).map SubsetCol.size →
        0 < sumVals (restGroup (([colA, colB] : List SubsetCol).drop 1) s) →
        Column.other s (sumVals (restGroup (([colA, colB] : List SubsetCol).drop 1) s))
          ((restGroup (([colA, colB] : List SubsetCol).drop 1) s).length)
          ∈ applyTopM [colA, colB] 1)) :=
  ⟨by decide, columns_truncation_spec [colA, colB] 1 (by decide)⟩

/-- C10: the three sibling winner selectors agree on every input: the
stacked-bar view's `bestByPareto` equals the matrix view's, and the winner
field of the ledger's `computeWinnerDetail` equals it as well (including
the null cases). -/
theorem winner_logic_agrees (N : ℕ) (miners : List Miner) (mask : ℕ) :
    bestByParetoPBS N miners mask = bestByPareto N miners mask ∧
    (computeWinnerDetail N miners mask).winner = bestByPareto N miners mask := by
  refine ⟨rfl, ?_⟩
  unfold computeWinnerDetail bestByPareto
  by_cases hm : miners = []
  · subst hm
    rfl
  · rw [if_neg hm]
    by_cases hc : candidatesOf N miners mask = []
    · rw [if_pos hc, if_pos hc]
    · rw [if_neg hc, if_neg hc]
      cases hf : tieBreakFold N mask (nonDominatedOf N miners mask) with
      | none => simp [hf]
      | some p =>
        cases p with
        | mk best k => simp [hf]
